import Mathlib

/-!
# Verification of the orchard watering-schedule generator (`src/app.py`)

Shallow embedding of the core of `app.py`.  Calendar dates are modelled as
integers (days since a fixed epoch that falls on a Monday), so that Python's
`d.weekday()` becomes `(d % 7).toNat` — Monday = 0, …, Sunday = 6 — and
`timedelta` arithmetic becomes integer addition.  Python `float` inputs
(`ha`, `liters_per_tree_per_week`) are modelled as rationals, and Python's
`round` (banker's rounding, round-half-to-even) is modelled exactly on `ℚ`.
Python dicts keyed by dates / blocks are modelled as association lists, and
the mutable week-allocation state of `generate_schedule` as explicit state
passing over a `WState` record.
-/

/-- Python `d.weekday()`: Monday = 0, …, Sunday = 6 (epoch day 0 is a Monday). -/
def weekday (d : ℤ) : ℕ := (d % 7).toNat

/-- `is_sunday` from `app.py`: `d.weekday() == 6`. -/
def is_sunday (d : ℤ) : Bool := weekday d == 6

/-- `daterange(start, end)` from `app.py`: all days `start ≤ d ≤ end`, ascending. -/
def daterange (s e : ℤ) : List ℤ :=
  (List.range (e + 1 - s).toNat).map (fun i : ℕ => s + (i : ℤ))

/-- `make_block_ids` from `app.py`: `[1, …, total_blocks]`. -/
def make_block_ids (total_blocks : ℕ) : List ℕ := (List.range total_blocks).map (· + 1)

/-- Python's `round(q)` for `ndigits = None`: round half to even (banker's rounding). -/
def pyRound (q : ℚ) : ℤ :=
  let f := q.floor
  let frac := q - (f : ℚ)
  if frac < 1/2 then f
  else if 1/2 < frac then f + 1
  else if f % 2 = 0 then f else f + 1

/-- Python's `round(q, nd)` for `nd ≥ 0`: banker's rounding at `nd` decimal digits. -/
def pyRoundTo (nd : ℕ) (q : ℚ) : ℚ := (pyRound (q * (10 ^ nd : ℚ)) : ℚ) / (10 ^ nd : ℚ)

/-- `dict.get(d, dflt)` on an association list (Python dicts keyed by dates). -/
def getA {β : Type} (m : List (ℤ × β)) (d : ℤ) (dflt : β) : β := (m.lookup d).getD dflt

/-- In-place update `dict[d] = f dict[d]` on an association list. -/
def updA {β : Type} (m : List (ℤ × β)) (d : ℤ) (f : β → β) : List (ℤ × β) :=
  m.map (fun p => if p.1 = d then (p.1, f p.2) else p)

/-- `_even_targets(days, total_assignable, max_per_day)` from `app.py`:
per-day leveling targets, `base = total_assignable // D` plus one for the first
`total_assignable % D` days, each capped at `max_per_day`. -/
def even_targets (days : List ℤ) (total_assignable max_per_day : ℕ) : List (ℤ × ℕ) :=
  let D := days.length
  if D = 0 then []
  else
    let base := total_assignable / D
    let rem := total_assignable % D
    days.enum.map (fun p => (p.2, min (base + (if p.1 < rem then 1 else 0)) max_per_day))

/-- The mutable per-week allocation state of `generate_schedule`:
`assignments` (day → list of block ids), `used` (the pairs recorded in
`block_day_used`), `day_remaining`, `assigned_count`, and `day_idx`. -/
structure WState where
  assignments : List (ℤ × List ℕ)
  used : List (ℕ × ℤ)
  remaining : List (ℤ × ℕ)
  assignedCount : ℕ
  dayIdx : ℕ
deriving Repr, DecidableEq

/-- One `while tries < D` probe loop of `generate_schedule`: starting at
`dayIdx`, probe `day_order[day_idx % D]`, advancing `day_idx` on failure,
for at most `fuel` tries (called with `fuel = D`).  Returns the chosen day
together with the value of `day_idx` at the moment of choice. -/
def searchDay (dayOrder : List ℤ) (D : ℕ) (ok : ℤ → Bool) : ℕ → ℕ → Option (ℤ × ℕ)
  | _, 0 => none
  | dayIdx, fuel + 1 =>
    let d := dayOrder.getD (dayIdx % D) 0
    if ok d then some (d, dayIdx) else searchDay dayOrder D ok (dayIdx + 1) fuel

/-- The success branch of the block loop body: append `b` to the chosen day's
list, record `(b, d)` in `block_day_used`, decrement `day_remaining[d]`,
bump `assigned_count`, and advance `day_idx` past the chosen position. -/
def assignStep (b : ℕ) (d : ℤ) (idx : ℕ) (s : WState) : WState :=
  { assignments := updA s.assignments d (fun l => l ++ [b])
    used := s.used ++ [(b, d)]
    remaining := updA s.remaining d (fun n => n - 1)
    assignedCount := s.assignedCount + 1
    dayIdx := idx + 1 }

/-- The body of `for b in rotated_blocks` in `generate_schedule`: first pass
looks for a day with remaining capacity not yet used for `b`; the second pass
(starting where the first left `day_idx`, i.e. advanced by `D`) accepts any
day with remaining capacity; `none` means `chosen_day is None` (break). -/
def allocBlock (dayOrder : List ℤ) (D : ℕ) (b : ℕ) (s : WState) : Option WState :=
  match searchDay dayOrder D
      (fun d => decide (0 < getA s.remaining d 0) && !(s.used.contains (b, d))) s.dayIdx D with
  | some (d, j) => some (assignStep b d j s)
  | none =>
    match searchDay dayOrder D (fun d => decide (0 < getA s.remaining d 0)) (s.dayIdx + D) D with
    | some (d, j) => some (assignStep b d j s)
    | none => none

/-- The `for b in rotated_blocks` loop: stop once `assigned_count >= assignable`
or once no day has capacity left (`chosen_day is None`). -/
def allocBlocks (dayOrder : List ℤ) (D assignable : ℕ) : List ℕ → WState → WState
  | [], s => s
  | b :: bs, s =>
    if assignable ≤ s.assignedCount then s
    else
      match allocBlock dayOrder D b s with
      | none => s
      | some s2 => allocBlocks dayOrder D assignable bs s2

/-- The initial per-week state: empty assignment lists for each week day,
empty `block_day_used`, `day_remaining` = the leveling targets. -/
def initState (weekDays : List ℤ) (assignable maxPerDay : ℕ) : WState :=
  { assignments := weekDays.map (fun d => (d, []))
    used := []
    remaining := even_targets weekDays assignable maxPerDay
    assignedCount := 0
    dayIdx := 0 }

/-- The `for k in range(events_per_week)` pass loop of `generate_schedule`:
pass `k` rotates the block list left by `k` and the day order left by
`k % D`, resets `day_idx` to 0, and runs the block loop. -/
def allocWeek (blockIds : List ℕ) (weekDays : List ℤ) (assignable events maxPerDay : ℕ) :
    WState :=
  let D := weekDays.length
  (List.range events).foldl
    (fun s k =>
      let rotatedBlocks := blockIds.drop k ++ blockIds.take k
      let r := k % D
      let dayOrder := weekDays.drop r ++ weekDays.take r
      allocBlocks dayOrder D assignable rotatedBlocks { s with dayIdx := 0 })
    (initState weekDays assignable maxPerDay)

/-- The input parameters of `generate_schedule` (in Python, its keyword
arguments; UI-supplied values). -/
structure Params where
  start_date : ℤ
  weeks : ℕ
  ha : ℚ
  blocks_per_ha : ℕ
  trees_per_block : ℕ
  events_per_week : ℕ
  max_blocks_per_day : ℕ
  rest_on_sunday : Bool
  liters_per_tree_per_week : ℚ
  water_split_mode : String
deriving Repr, DecidableEq

/-- `total_blocks = int(round(ha * blocks_per_ha))`. -/
def totalBlocksOf (p : Params) : ℤ := pyRound (p.ha * (p.blocks_per_ha : ℚ))

/-- `end_date = start_date + timedelta(days=weeks * 7 - 1)`. -/
def horizonEnd (p : Params) : ℤ := p.start_date + ((p.weeks : ℤ) * 7 - 1)

/-- Week `w`'s candidate days: `daterange(wk_start, wk_end)` clipped to the
horizon `[start_date, end_date]`. -/
def candidateDays (p : Params) (w : ℕ) : List ℤ :=
  let wkStart := p.start_date + 7 * (w : ℤ)
  let wkEnd := wkStart + 6
  (daterange wkStart wkEnd).filter
    (fun d => decide (p.start_date ≤ d) && decide (d ≤ horizonEnd p))

/-- Week `w`'s `week_days`: the candidate days, minus Sundays when
`rest_on_sunday` is set. -/
def weekDaysOf (p : Params) (w : ℕ) : List ℤ :=
  if p.rest_on_sunday then (candidateDays p w).filter (fun d => !(is_sunday d))
  else candidateDays p w

/-- `required = total_blocks * events_per_week` (the same for every week). -/
def weekRequired (p : Params) : ℕ := (totalBlocksOf p).toNat * p.events_per_week

/-- `capacity = D * max_blocks_per_day` for week `w`. -/
def weekCapacity (p : Params) (w : ℕ) : ℕ := (weekDaysOf p w).length * p.max_blocks_per_day

/-- `assignable = min(required, capacity)` for week `w`. -/
def weekAssignable (p : Params) (w : ℕ) : ℕ := min (weekRequired p) (weekCapacity p w)

/-- The capacity-shortfall warning string of `generate_schedule`, for week
index `w` (0-based) with `D` working days. -/
def mkWarning (p : Params) (w D : ℕ) : String :=
  "Week " ++ toString (w + 1) ++ ": 必要割当(" ++ toString (weekRequired p) ++
  "件=ブロック" ++ toString (totalBlocksOf p).toNat ++ "×" ++ toString p.events_per_week ++
  "回/週)が、週の上限枠(" ++ toString (weekCapacity p w) ++ "件=稼働日" ++ toString D ++
  "×" ++ toString p.max_blocks_per_day ++
  "ブロック/日)を超えています。 → max_blocks_per_day を増やすか、events_per_week を下げてください。"

/-- The warnings contributed by week `w` (empty when the week is skipped or
capacity suffices, the single shortfall warning otherwise). -/
def weekWarnsOf (p : Params) (w : ℕ) : List String :=
  if weekDaysOf p w = [] then []
  else if weekCapacity p w < weekRequired p then [mkWarning p w (weekDaysOf p w).length]
  else []

/-- The final allocation state of week `w`. -/
def weekStateOf (p : Params) (w : ℕ) : WState :=
  allocWeek (make_block_ids (totalBlocksOf p).toNat) (weekDaysOf p w) (weekAssignable p w)
    p.events_per_week p.max_blocks_per_day

/-- `liters_per_tree_per_unit`: per-tree liter allocation for a week with `D`
working days — `liters / D` in "workdays" mode, otherwise
`liters / max(events_per_week, 1)`. -/
def litersPerUnit (p : Params) (D : ℕ) : ℚ :=
  if p.water_split_mode = "workdays" then p.liters_per_tree_per_week / (D : ℚ)
  else p.liters_per_tree_per_week / (max p.events_per_week 1 : ℚ)

/-- `water_unit_label` for the chosen split mode. -/
def unitLabel (p : Params) : String :=
  if p.water_split_mode = "workdays" then "稼働日割(ℓ/日)" else "潅水回数割(ℓ/回)"

/-- One row of the generated schedule (one `rows.append({...})` record;
the date, weekday index and block-id list are kept structured — the Python
code renders them as ISO / label / comma-joined strings). -/
structure Row where
  date : ℤ
  weekdayIdx : ℕ
  week : ℕ
  blockCount : ℕ
  blockList : List ℕ
  treesEst : ℕ
  splitLabel : String
  perTree : ℚ
  liters : ℚ
  m3 : ℚ
deriving Repr, DecidableEq

/-- The row emitted for day `d` of week `w` (`u` = `liters_per_tree_per_unit`,
`st` = the week's final allocation state). -/
def rowFor (p : Params) (w : ℕ) (u : ℚ) (st : WState) (d : ℤ) : Row :=
  let bl := getA st.assignments d []
  let trees := bl.length * p.trees_per_block
  let litersTotal : ℚ := (trees : ℚ) * u
  { date := d
    weekdayIdx := weekday d
    week := w + 1
    blockCount := bl.length
    blockList := bl
    treesEst := trees
    splitLabel := unitLabel p
    perTree := pyRoundTo 2 u
    liters := pyRoundTo 0 litersTotal
    m3 := pyRoundTo 2 (litersTotal / 1000) }

/-- The rows contributed by week `w` (empty when `week_days` is empty,
otherwise one row per working day, in day order). -/
def weekRowsOf (p : Params) (w : ℕ) : List Row :=
  let wd := weekDaysOf p w
  if wd = [] then []
  else wd.map (rowFor p w (litersPerUnit p wd.length) (weekStateOf p w))

/-- A value of the heterogeneous metadata dict returned by `generate_schedule`. -/
inductive MVal : Type
  | i : ℤ → MVal
  | q : ℚ → MVal
  | b : Bool → MVal
  | s : String → MVal
  | strs : List String → MVal
deriving Repr, DecidableEq

/-- The degenerate-input warning message (`total_blocks <= 0`). -/
def emptyMsg : String := "ha または blocks_per_ha が0以下のため生成できません。"

/-- `generate_schedule` from `app.py`: the list of schedule rows (the rows of
the returned DataFrame, in order) together with the metadata dict (as an
ordered association list mirroring the Python dict literal). -/
def generate_schedule (p : Params) : List Row × List (String × MVal) :=
  if totalBlocksOf p ≤ 0 then
    ([], [("total_blocks", MVal.i 0), ("warnings", MVal.strs [emptyMsg])])
  else
    let rows := ((List.range p.weeks).map (weekRowsOf p)).flatten
    let warns := ((List.range p.weeks).map (weekWarnsOf p)).flatten
    (rows,
      [("ha", MVal.q p.ha),
       ("blocks_per_ha", MVal.i (p.blocks_per_ha : ℤ)),
       ("trees_per_block", MVal.i (p.trees_per_block : ℤ)),
       ("total_blocks", MVal.i (totalBlocksOf p)),
       ("events_per_week", MVal.i (p.events_per_week : ℤ)),
       ("max_blocks_per_day", MVal.i (p.max_blocks_per_day : ℤ)),
       ("weeks", MVal.i (p.weeks : ℤ)),
       ("rest_on_sunday", MVal.b p.rest_on_sunday),
       ("liters_per_tree_per_week", MVal.q p.liters_per_tree_per_week),
       ("water_split_mode", MVal.s p.water_split_mode),
       ("warnings", MVal.strs warns)])

/-! ## Association-list lemmas (the Python dicts of `generate_schedule`) -/

theorem lookup_consA {β : Type} (k : ℤ) (v : β) (t : List (ℤ × β)) (d : ℤ) :
    ((k, v) :: t).lookup d = if d = k then some v else t.lookup d := by
  by_cases h : d = k
  · subst h; simp [List.lookup]
  · have hb : (d == k) = false := by simp [h]
    simp [List.lookup, hb, h]

theorem updA_consA {β : Type} (k : ℤ) (v : β) (t : List (ℤ × β)) (d : ℤ) (f : β → β) :
    updA ((k, v) :: t) d f = (if k = d then (k, f v) else (k, v)) :: updA t d f := by
  by_cases h : k = d <;> simp [updA, h]

theorem keys_updA {β : Type} (m : List (ℤ × β)) (d : ℤ) (f : β → β) :
    (updA m d f).map Prod.fst = m.map Prod.fst := by
  induction m with
  | nil => rfl
  | cons p t ih =>
    obtain ⟨k, v⟩ := p
    rw [updA_consA]
    by_cases h : k = d <;> simp [h, ih]

theorem updA_not_mem {β : Type} {m : List (ℤ × β)} {d : ℤ} (f : β → β)
    (h : d ∉ m.map Prod.fst) : updA m d f = m := by
  induction m with
  | nil => rfl
  | cons p t ih =>
    obtain ⟨k, v⟩ := p
    simp only [List.map_cons, List.mem_cons, not_or] at h
    rw [updA_consA, if_neg (fun hc => h.1 hc.symm), ih h.2]

theorem lookup_updA_self {β : Type} {m : List (ℤ × β)} {d : ℤ} {v : β} (f : β → β)
    (h : m.lookup d = some v) : (updA m d f).lookup d = some (f v) := by
  induction m with
  | nil => simp [List.lookup] at h
  | cons p t ih =>
    obtain ⟨k, w⟩ := p
    rw [lookup_consA] at h
    rw [updA_consA]
    by_cases hk : k = d
    · rw [if_pos hk]
      rw [if_pos hk.symm] at h
      injection h with h
      rw [h, lookup_consA, if_pos hk.symm]
    · rw [if_neg hk]
      rw [if_neg (fun hc => hk hc.symm)] at h
      rw [lookup_consA, if_neg (fun hc => hk hc.symm)]
      exact ih h

theorem lookup_updA_ne {β : Type} (m : List (ℤ × β)) {d d' : ℤ} (f : β → β)
    (h : d' ≠ d) : (updA m d f).lookup d' = m.lookup d' := by
  induction m with
  | nil => rfl
  | cons p t ih =>
    obtain ⟨k, v⟩ := p
    rw [updA_consA]
    by_cases hk : k = d
    · rw [if_pos hk, lookup_consA, lookup_consA, if_neg (fun hc => h (hc.trans hk)),
        if_neg (fun hc => h (hc.trans hk))]
      exact ih
    · rw [if_neg hk, lookup_consA, lookup_consA]
      by_cases hk' : d' = k
      · rw [if_pos hk', if_pos hk']
      · rw [if_neg hk', if_neg hk']
        exact ih

theorem lookup_isSome_iff {β : Type} (m : List (ℤ × β)) (d : ℤ) :
    (m.lookup d).isSome = true ↔ d ∈ m.map Prod.fst := by
  induction m with
  | nil => simp [List.lookup]
  | cons p t ih =>
    obtain ⟨k, v⟩ := p
    rw [lookup_consA]
    by_cases hk : d = k <;> simp [hk, ih]

theorem lookup_eq_some_getA {β : Type} {m : List (ℤ × β)} {d : ℤ} (dflt : β)
    (h : d ∈ m.map Prod.fst) : m.lookup d = some (getA m d dflt) := by
  have hs := (lookup_isSome_iff m d).mpr h
  cases hv : m.lookup d with
  | none => rw [hv] at hs; simp at hs
  | some v => simp [getA, hv]

theorem getA_updA_ne {β : Type} (m : List (ℤ × β)) {d d' : ℤ} (f : β → β) (dflt : β)
    (h : d' ≠ d) : getA (updA m d f) d' dflt = getA m d' dflt := by
  simp [getA, lookup_updA_ne m f h]

theorem getA_updA_self {β : Type} {m : List (ℤ × β)} {d : ℤ} {v : β} (f : β → β) (dflt : β)
    (h : m.lookup d = some v) : getA (updA m d f) d dflt = f v := by
  simp [getA, lookup_updA_self f h]

theorem sum_updA {β : Type} (μ : β → ℕ) {m : List (ℤ × β)} {d : ℤ} {v : β} (f : β → β)
    (hnd : (m.map Prod.fst).Nodup) (h : m.lookup d = some v) :
    ((updA m d f).map (fun p => μ p.2)).sum + μ v
      = (m.map (fun p => μ p.2)).sum + μ (f v) := by
  induction m with
  | nil => simp [List.lookup] at h
  | cons p t ih =>
    obtain ⟨k, w⟩ := p
    simp only [List.map_cons, List.nodup_cons] at hnd
    rw [lookup_consA] at h
    rw [updA_consA]
    by_cases hk : k = d
    · rw [if_pos hk]
      rw [if_pos hk.symm] at h
      injection h with h
      subst h
      have ht : updA t d f = t := updA_not_mem f (hk ▸ hnd.1)
      rw [ht]
      simp only [List.map_cons, List.sum_cons]
      omega
    · rw [if_neg hk]
      rw [if_neg (fun hc => hk hc.symm)] at h
      have := ih hnd.2 h
      simp only [List.map_cons, List.sum_cons]
      omega

theorem sum_getA_keys {β : Type} (μ : β → ℕ) (dflt : β) (m : List (ℤ × β))
    (hnd : (m.map Prod.fst).Nodup) :
    ((m.map Prod.fst).map (fun d => μ (getA m d dflt))).sum
      = (m.map (fun p => μ p.2)).sum := by
  induction m with
  | nil => rfl
  | cons p t ih =>
    obtain ⟨k, v⟩ := p
    simp only [List.map_cons, List.nodup_cons] at hnd
    simp only [List.map_cons, List.sum_cons]
    have hhead : getA ((k, v) :: t) k dflt = v := by
      simp [getA, lookup_consA]
    have htail : ∀ d ∈ t.map Prod.fst,
        μ (getA ((k, v) :: t) d dflt) = μ (getA t d dflt) := by
      intro d hd
      have hne : d ≠ k := fun hc => hnd.1 (hc ▸ hd)
      simp [getA, lookup_consA, if_neg hne]
    rw [hhead, List.map_congr_left htail, ih hnd.2]

theorem exists_pos_getA {m : List (ℤ × ℕ)} (hnd : (m.map Prod.fst).Nodup)
    (h : 0 < (m.map Prod.snd).sum) :
    ∃ d, d ∈ m.map Prod.fst ∧ 0 < getA m d 0 := by
  induction m with
  | nil => simp at h
  | cons p t ih =>
    obtain ⟨k, v⟩ := p
    simp only [List.map_cons, List.nodup_cons] at hnd
    simp only [List.map_cons, List.sum_cons] at h
    by_cases hp : 0 < v
    · exact ⟨k, by simp, by simp [getA, lookup_consA, hp]⟩
    · have ht : 0 < (t.map Prod.snd).sum := by omega
      obtain ⟨d, hd, hpos⟩ := ih hnd.2 ht
      refine ⟨d, by simp [hd], ?_⟩
      have hne : d ≠ k := fun hc => hnd.1 (hc ▸ hd)
      simpa [getA, lookup_consA, if_neg hne] using hpos

theorem snd_mem_of_lookup {β : Type} {m : List (ℤ × β)} {d : ℤ} {v : β}
    (h : m.lookup d = some v) : v ∈ m.map Prod.snd := by
  induction m with
  | nil => simp [List.lookup] at h
  | cons p t ih =>
    obtain ⟨k, w⟩ := p
    rw [lookup_consA] at h
    by_cases hk : d = k
    · rw [if_pos hk] at h
      injection h with h
      simp [h]
    · rw [if_neg hk] at h
      simp [ih h]

theorem getA_map_nil {d : ℤ} (wd : List ℤ) :
    getA (wd.map (fun x => (x, ([] : List ℕ)))) d [] = [] := by
  induction wd with
  | nil => rfl
  | cons a t ih =>
    simp only [List.map_cons]
    rw [getA, lookup_consA]
    by_cases h : d = a
    · rw [if_pos h]; rfl
    · rw [if_neg h]; exact ih

/-! ## Lemmas about `_even_targets` -/

theorem keys_even_targets (days : List ℤ) (t m : ℕ) :
    (even_targets days t m).map Prod.fst = days := by
  by_cases h : days.length = 0
  · rw [List.length_eq_zero] at h
    subst h; rfl
  · simp only [even_targets, if_neg h, List.map_map]
    have : (Prod.fst ∘ fun p : ℕ × ℤ =>
        (p.2, min (t / days.length + if p.1 < t % days.length then 1 else 0) m))
        = Prod.snd := by
      funext p; rfl
    rw [this, List.enum_map_snd]

theorem snd_even_targets (days : List ℤ) (t m : ℕ) (h : days.length ≠ 0) :
    (even_targets days t m).map Prod.snd
      = (List.range days.length).map
          (fun i => min (t / days.length + if i < t % days.length then 1 else 0) m) := by
  simp only [even_targets, if_neg h, List.map_map]
  have : (Prod.snd ∘ fun p : ℕ × ℤ =>
      (p.2, min (t / days.length + if p.1 < t % days.length then 1 else 0) m))
      = (fun i => min (t / days.length + if i < t % days.length then 1 else 0) m) ∘ Prod.fst := by
    funext p; rfl
  rw [this, ← List.map_map, List.enum_map_fst]

theorem sum_range_ite (base rem : ℕ) :
    ∀ D, ((List.range D).map (fun i => base + if i < rem then 1 else 0)).sum
      = D * base + min rem D := by
  intro D
  induction D with
  | zero => simp
  | succ n ih =>
    rw [List.range_succ, List.map_append, List.sum_append, ih]
    by_cases h : n < rem
    · have h1 : min rem n = n := by omega
      have h2 : min rem (n + 1) = n + 1 := by omega
      simp [h, h1, h2]
      ring
    · have h1 : min rem n = min rem (n + 1) := by omega
      simp [h, ← h1]
      ring

theorem base_le_of_cap {t D m : ℕ} (hD : 0 < D) (hcap : t ≤ D * m) : t / D ≤ m := by
  have hdm := Nat.div_add_mod t D
  have h1 : D * (t / D) ≤ D * m := by omega
  exact Nat.le_of_mul_le_mul_left h1 hD

theorem base_succ_le_of_rem {t D m : ℕ} (hcap : t ≤ D * m)
    (hrem : t % D ≠ 0) : t / D + 1 ≤ m := by
  by_contra hc
  have hm : m ≤ t / D := by omega
  have h1 : D * m ≤ D * (t / D) := Nat.mul_le_mul_left D hm
  have hdm := Nat.div_add_mod t D
  omega

theorem sum_even_targets (days : List ℤ) (t m : ℕ) (hD : 0 < days.length)
    (hcap : t ≤ days.length * m) :
    ((even_targets days t m).map Prod.snd).sum = t := by
  have hne : days.length ≠ 0 := by omega
  rw [snd_even_targets days t m hne]
  have hmlt : t % days.length < days.length := Nat.mod_lt _ hD
  have hdm := Nat.div_add_mod t days.length
  have hcong : ∀ i ∈ List.range days.length,
      min (t / days.length + if i < t % days.length then 1 else 0) m
        = t / days.length + if i < t % days.length then 1 else 0 := by
    intro i _
    by_cases hi : i < t % days.length
    · have := base_succ_le_of_rem hcap (by omega)
      simp [hi]; omega
    · have := base_le_of_cap hD hcap
      simp [hi]; omega
  rw [List.map_congr_left hcong, sum_range_ite]
  omega

theorem getA_even_targets_le (days : List ℤ) (t m : ℕ) (d : ℤ) :
    getA (even_targets days t m) d 0 ≤ m := by
  rw [getA]
  cases hv : (even_targets days t m).lookup d with
  | none => simp
  | some v =>
    simp only [Option.getD_some]
    have hmem := snd_mem_of_lookup hv
    by_cases h : days.length = 0
    · rw [List.length_eq_zero] at h
      subst h
      simp [even_targets] at hv
    · rw [snd_even_targets days t m h] at hmem
      obtain ⟨i, _, hval⟩ := List.mem_map.mp hmem
      omega

/-! ## Lemmas about the probe loops (`searchDay`) and the block loop body -/

theorem searchDay_some {dayOrder : List ℤ} {D : ℕ} {ok : ℤ → Bool} :
    ∀ {fuel dayIdx : ℕ} {d : ℤ} {j : ℕ},
      searchDay dayOrder D ok dayIdx fuel = some (d, j) →
      ok d = true ∧ dayIdx ≤ j ∧ j < dayIdx + fuel ∧ d = dayOrder.getD (j % D) 0 := by
  intro fuel
  induction fuel with
  | zero => intro dayIdx d j h; simp [searchDay] at h
  | succ n ih =>
    intro dayIdx d j h
    rw [searchDay] at h
    split at h
    next hok =>
      injection h with h
      injection h with h1 h2
      subst h1; subst h2
      exact ⟨hok, le_refl _, by omega, rfl⟩
    next =>
      obtain ⟨h1, h2, h3, h4⟩ := ih h
      exact ⟨h1, by omega, by omega, h4⟩

theorem searchDay_none {dayOrder : List ℤ} {D : ℕ} {ok : ℤ → Bool} :
    ∀ {fuel dayIdx : ℕ}, searchDay dayOrder D ok dayIdx fuel = none →
      ∀ j, dayIdx ≤ j → j < dayIdx + fuel → ok (dayOrder.getD (j % D) 0) = false := by
  intro fuel
  induction fuel with
  | zero => intro dayIdx _ j h1 h2; omega
  | succ n ih =>
    intro dayIdx h j h1 h2
    rw [searchDay] at h
    split at h
    next => exact absurd h (by simp)
    next hok =>
      by_cases hj : j = dayIdx
      · subst hj
        exact Bool.not_eq_true _ ▸ hok
      · exact ih h j (by omega) (by omega)

theorem searchDay_none_all {dayOrder : List ℤ} {D : ℕ} {ok : ℤ → Bool} {dayIdx : ℕ}
    (hD : 0 < D) (h : searchDay dayOrder D ok dayIdx D = none) :
    ∀ i, i < D → ok (dayOrder.getD i 0) = false := by
  intro i hi
  have hdm := Nat.div_add_mod dayIdx D
  have hr : dayIdx % D < D := Nat.mod_lt _ hD
  have hmul : D * (dayIdx / D + 1) = D * (dayIdx / D) + D := by ring
  by_cases hcase : dayIdx % D ≤ i
  · have hval := searchDay_none h (D * (dayIdx / D) + i) (by omega) (by omega)
    rwa [Nat.mul_add_mod, Nat.mod_eq_of_lt hi] at hval
  · have hval := searchDay_none h (D * (dayIdx / D + 1) + i) (by omega) (by omega)
    rwa [Nat.mul_add_mod, Nat.mod_eq_of_lt hi] at hval

theorem allocBlock_shape {dayOrder : List ℤ} {D b : ℕ} {s s' : WState}
    (h : allocBlock dayOrder D b s = some s') :
    ∃ d j, s' = assignStep b d j s ∧ 0 < getA s.remaining d 0
      ∧ d = dayOrder.getD (j % D) 0 := by
  rw [allocBlock] at h
  cases h1 : searchDay dayOrder D
      (fun d => decide (0 < getA s.remaining d 0) && !(s.used.contains (b, d))) s.dayIdx D with
  | some dj =>
    obtain ⟨d, j⟩ := dj
    rw [h1] at h
    injection h with h
    obtain ⟨hok, _, _, hd⟩ := searchDay_some h1
    simp only [Bool.and_eq_true, decide_eq_true_eq] at hok
    exact ⟨d, j, h.symm, hok.1, hd⟩
  | none =>
    rw [h1] at h
    cases h2 : searchDay dayOrder D
        (fun d => decide (0 < getA s.remaining d 0)) (s.dayIdx + D) D with
    | some dj =>
      obtain ⟨d, j⟩ := dj
      rw [h2] at h
      injection h with h
      obtain ⟨hok, _, _, hd⟩ := searchDay_some h2
      simp only [decide_eq_true_eq] at hok
      exact ⟨d, j, h.symm, hok, hd⟩
    | none => rw [h2] at h; exact absurd h (by simp)

theorem allocBlock_mem {dayOrder : List ℤ} {D b : ℕ} {s s' : WState}
    (hlen : dayOrder.length = D) (hD : 0 < D)
    (h : allocBlock dayOrder D b s = some s') :
    ∃ d j, s' = assignStep b d j s ∧ 0 < getA s.remaining d 0 ∧ d ∈ dayOrder := by
  obtain ⟨d, j, hs, hpos, hd⟩ := allocBlock_shape h
  refine ⟨d, j, hs, hpos, ?_⟩
  have hjD : j % D < dayOrder.length := by rw [hlen]; exact Nat.mod_lt _ hD
  rw [hd, List.getD_eq_getElem dayOrder 0 hjD]
  exact List.getElem_mem hjD

theorem allocBlock_none {dayOrder : List ℤ} {D b : ℕ} {s : WState}
    (hlen : dayOrder.length = D) (hD : 0 < D)
    (h : allocBlock dayOrder D b s = none) :
    ∀ d ∈ dayOrder, getA s.remaining d 0 = 0 := by
  intro d hd
  rw [allocBlock] at h
  cases h1 : searchDay dayOrder D
      (fun d => decide (0 < getA s.remaining d 0) && !(s.used.contains (b, d))) s.dayIdx D with
  | some dj => rw [h1] at h; obtain ⟨x, y⟩ := dj; exact absurd h (by simp)
  | none =>
    rw [h1] at h
    cases h2 : searchDay dayOrder D
        (fun d => decide (0 < getA s.remaining d 0)) (s.dayIdx + D) D with
    | some dj => rw [h2] at h; obtain ⟨x, y⟩ := dj; exact absurd h (by simp)
    | none =>
      obtain ⟨i, hiD, hgi⟩ := List.mem_iff_getElem.mp hd
      have hall := searchDay_none_all hD h2 i (by omega)
      rw [List.getD_eq_getElem dayOrder 0 hiD, hgi] at hall
      simpa using hall

/-! ## The week-allocation invariant -/

/-- Invariant of the week-allocation state: the assignment and remaining
dicts are keyed by the week's days; the assignment lengths sum to
`assigned_count`; remaining capacity plus `assigned_count` equals
`assignable`; and per day, assigned + remaining equals the leveling target. -/
structure WeekInv (wd : List ℤ) (targets : List (ℤ × ℕ)) (A : ℕ) (s : WState) : Prop where
  keysA : s.assignments.map Prod.fst = wd
  keysR : s.remaining.map Prod.fst = wd
  sumC : (s.assignments.map (fun p => p.2.length)).sum = s.assignedCount
  sumR : (s.remaining.map Prod.snd).sum + s.assignedCount = A
  perDay : ∀ d, (getA s.assignments d []).length + getA s.remaining d 0 = getA targets d 0

theorem weekInv_count_le {wd targets A} {s : WState} (inv : WeekInv wd targets A s) :
    s.assignedCount ≤ A := by
  have := inv.sumR
  omega

theorem weekInv_assignStep {wd : List ℤ} {targets : List (ℤ × ℕ)} {A : ℕ} {s : WState}
    (hnd : wd.Nodup) (inv : WeekInv wd targets A s)
    {b : ℕ} {d : ℤ} {j : ℕ} (hd : d ∈ wd) (hrem : 0 < getA s.remaining d 0) :
    WeekInv wd targets A (assignStep b d j s) := by
  have hdA : d ∈ s.assignments.map Prod.fst := by rw [inv.keysA]; exact hd
  have hdR : d ∈ s.remaining.map Prod.fst := by rw [inv.keysR]; exact hd
  have hlkA := lookup_eq_some_getA [] hdA
  have hlkR := lookup_eq_some_getA 0 hdR
  refine ⟨?_, ?_, ?_, ?_, ?_⟩
  · rw [assignStep]
    simp only
    rw [keys_updA, inv.keysA]
  · rw [assignStep]
    simp only
    rw [keys_updA, inv.keysR]
  · rw [assignStep]
    simp only
    have hs := sum_updA List.length (fun l => l ++ [b]) (inv.keysA ▸ hnd) hlkA
    simp only [List.length_append, List.length_singleton] at hs
    have := inv.sumC
    omega
  · rw [assignStep]
    simp only
    have hs := sum_updA id (fun n => n - 1) (inv.keysR ▸ hnd) hlkR
    simp only [id] at hs
    have hR := inv.sumR
    have e1 : (List.map Prod.snd (updA s.remaining d fun n => n - 1)).sum
        = (List.map (fun p : ℤ × ℕ => p.2) (updA s.remaining d fun n => n - 1)).sum := rfl
    have e2 : (List.map Prod.snd s.remaining).sum
        = (List.map (fun p : ℤ × ℕ => p.2) s.remaining).sum := rfl
    rw [e1]
    rw [e2] at hR
    omega
  · intro d'
    rw [assignStep]
    simp only
    by_cases hdd : d' = d
    · subst hdd
      rw [getA_updA_self _ [] hlkA, getA_updA_self _ 0 hlkR]
      have := inv.perDay d'
      simp only [List.length_append, List.length_singleton]
      omega
    · rw [getA_updA_ne _ _ [] hdd, getA_updA_ne _ _ 0 hdd]
      exact inv.perDay d'

theorem allocBlocks_spec {wd : List ℤ} {targets : List (ℤ × ℕ)} {A : ℕ}
    {dayOrder : List ℤ} {D : ℕ}
    (hnd : wd.Nodup) (hlen : dayOrder.length = D) (hD : 0 < D)
    (hmem : ∀ d, d ∈ dayOrder ↔ d ∈ wd) :
    ∀ (bs : List ℕ) (s : WState), WeekInv wd targets A s →
      WeekInv wd targets A (allocBlocks dayOrder D A bs s) ∧
      (allocBlocks dayOrder D A bs s).assignedCount = min (s.assignedCount + bs.length) A := by
  intro bs
  induction bs with
  | nil =>
    intro s inv
    have := weekInv_count_le inv
    exact ⟨inv, by simp [allocBlocks]; omega⟩
  | cons b bs ih =>
    intro s inv
    have hle := weekInv_count_le inv
    rw [allocBlocks]
    by_cases hstop : A ≤ s.assignedCount
    · rw [if_pos hstop]
      refine ⟨inv, ?_⟩
      simp only [List.length_cons]
      omega
    · rw [if_neg hstop]
      cases hab : allocBlock dayOrder D b s with
      | none =>
        exfalso
        have hz := allocBlock_none hlen hD hab
        have hpos : 0 < (s.remaining.map Prod.snd).sum := by
          have hR := inv.sumR
          omega
        obtain ⟨d, hdk, hdpos⟩ := exists_pos_getA (inv.keysR ▸ hnd) hpos
        rw [inv.keysR] at hdk
        have := hz d ((hmem d).mpr hdk)
        omega
      | some s2 =>
        obtain ⟨d, j, hs2, hpos, hdin⟩ := allocBlock_mem hlen hD hab
        have hdwd : d ∈ wd := (hmem d).mp hdin
        have inv2 : WeekInv wd targets A s2 := hs2 ▸ weekInv_assignStep hnd inv hdwd hpos
        have hcnt2 : s2.assignedCount = s.assignedCount + 1 := by
          rw [hs2, assignStep]
        obtain ⟨hinv3, hcnt3⟩ := ih s2 inv2
        refine ⟨hinv3, ?_⟩
        rw [hcnt3, hcnt2]
        simp only [List.length_cons]
        omega

theorem rotate_perm {α : Type} (l : List α) (k : ℕ) : (l.drop k ++ l.take k).Perm l :=
  (List.perm_append_comm).trans (by rw [List.take_append_drop])

theorem length_rotate {α : Type} (l : List α) (k : ℕ) :
    (l.drop k ++ l.take k).length = l.length :=
  (rotate_perm l k).length_eq

theorem initState_inv (wd : List ℤ) (A maxPerDay : ℕ)
    (hD : 0 < wd.length) (hcap : A ≤ wd.length * maxPerDay) :
    WeekInv wd (even_targets wd A maxPerDay) A (initState wd A maxPerDay) := by
  refine ⟨?_, ?_, ?_, ?_, ?_⟩
  · rw [initState]
    simp only [List.map_map]
    have : (Prod.fst ∘ fun d : ℤ => (d, ([] : List ℕ))) = id := rfl
    rw [this, List.map_id]
  · rw [initState]
    exact keys_even_targets wd A maxPerDay
  · rw [initState]
    simp only [List.map_map]
    have : ((fun p : ℤ × List ℕ => p.2.length) ∘ fun d : ℤ => (d, ([] : List ℕ)))
        = fun _ => 0 := rfl
    rw [this]
    simp
  · rw [initState]
    simp only
    rw [sum_even_targets wd A maxPerDay hD hcap]
    omega
  · intro d
    rw [initState]
    simp only
    rw [getA_map_nil]
    simp

theorem weekInv_resetIdx {wd targets A} {s : WState} (inv : WeekInv wd targets A s) :
    WeekInv wd targets A { s with dayIdx := 0 } :=
  ⟨inv.keysA, inv.keysR, inv.sumC, inv.sumR, inv.perDay⟩

theorem allocWeek_fold_spec {wd : List ℤ} {targets : List (ℤ × ℕ)} {A : ℕ}
    (blockIds : List ℕ) (hnd : wd.Nodup) (hD : 0 < wd.length) :
    ∀ (ks : List ℕ) (s : WState), WeekInv wd targets A s →
      WeekInv wd targets A
        (ks.foldl
          (fun s k =>
            allocBlocks (wd.drop (k % wd.length) ++ wd.take (k % wd.length)) wd.length A
              (blockIds.drop k ++ blockIds.take k) { s with dayIdx := 0 }) s) ∧
      (ks.foldl
          (fun s k =>
            allocBlocks (wd.drop (k % wd.length) ++ wd.take (k % wd.length)) wd.length A
              (blockIds.drop k ++ blockIds.take k) { s with dayIdx := 0 }) s).assignedCount
        = min (s.assignedCount + ks.length * blockIds.length) A := by
  intro ks
  induction ks with
  | nil =>
    intro s inv
    refine ⟨inv, ?_⟩
    have := weekInv_count_le inv
    simp only [List.foldl_nil, List.length_nil, Nat.zero_mul, Nat.add_zero]
    omega
  | cons k ks ih =>
    intro s inv
    simp only [List.foldl_cons]
    have hlen := length_rotate wd (k % wd.length)
    have hmem : ∀ d, d ∈ wd.drop (k % wd.length) ++ wd.take (k % wd.length) ↔ d ∈ wd :=
      fun d => (rotate_perm wd (k % wd.length)).mem_iff
    have hstep := allocBlocks_spec hnd hlen hD hmem
      (blockIds.drop k ++ blockIds.take k) { s with dayIdx := 0 } (weekInv_resetIdx inv)
    obtain ⟨inv2, hcnt2⟩ := hstep
    obtain ⟨inv3, hcnt3⟩ := ih _ inv2
    refine ⟨inv3, ?_⟩
    rw [hcnt3, hcnt2]
    have hrb : (blockIds.drop k ++ blockIds.take k).length = blockIds.length :=
      length_rotate blockIds k
    have hmul : (ks.length + 1) * blockIds.length
        = ks.length * blockIds.length + blockIds.length := by ring
    simp only [List.length_cons]
    omega

theorem allocWeek_spec (blockIds : List ℕ) (wd : List ℤ) (A events maxPerDay : ℕ)
    (hnd : wd.Nodup) (hD : 0 < wd.length) (hcap : A ≤ wd.length * maxPerDay) :
    WeekInv wd (even_targets wd A maxPerDay) A (allocWeek blockIds wd A events maxPerDay) ∧
    (allocWeek blockIds wd A events maxPerDay).assignedCount
      = min (events * blockIds.length) A := by
  have h := allocWeek_fold_spec blockIds hnd hD (List.range events)
    (initState wd A maxPerDay) (initState_inv wd A maxPerDay hD hcap)
  rw [allocWeek]
  refine ⟨h.1, ?_⟩
  rw [h.2, List.length_range, initState]
  simp [Nat.mul_comm]

/-! ## Dates: `week_days` facts -/

theorem mem_daterange {s e d : ℤ} : d ∈ daterange s e ↔ s ≤ d ∧ d ≤ e := by
  rw [daterange]
  simp only [List.mem_map, List.mem_range]
  constructor
  · rintro ⟨i, hi, rfl⟩
    omega
  · intro ⟨h1, h2⟩
    exact ⟨(d - s).toNat, by omega, by omega⟩

theorem nodup_daterange (s e : ℤ) : (daterange s e).Nodup := by
  rw [daterange]
  have hinj : Function.Injective (fun i : ℕ => s + (i : ℤ)) := by
    intro a b h
    simp only at h
    omega
  exact (List.nodup_range _).map hinj

theorem nodup_weekDaysOf (p : Params) (w : ℕ) : (weekDaysOf p w).Nodup := by
  have hc : (candidateDays p w).Nodup := (nodup_daterange _ _).filter _
  rw [weekDaysOf]
  by_cases h : p.rest_on_sunday
  · rw [if_pos h]
    exact hc.filter _
  · rw [if_neg h]
    exact hc

/-! ## Per-week facts about the generated rows -/

theorem blockCount_rowFor (p : Params) (w : ℕ) (u : ℚ) (st : WState) (d : ℤ) :
    (rowFor p w u st d).blockCount = (getA st.assignments d []).length := rfl

theorem weekRows_eq (p : Params) (w : ℕ) (hne : weekDaysOf p w ≠ []) :
    weekRowsOf p w = (weekDaysOf p w).map
      (rowFor p w (litersPerUnit p (weekDaysOf p w).length) (weekStateOf p w)) := by
  rw [weekRowsOf]
  simp only [if_neg hne]

theorem weekState_spec (p : Params) (w : ℕ) (hne : weekDaysOf p w ≠ []) :
    WeekInv (weekDaysOf p w)
      (even_targets (weekDaysOf p w) (weekAssignable p w) p.max_blocks_per_day)
      (weekAssignable p w) (weekStateOf p w) ∧
    (weekStateOf p w).assignedCount = weekAssignable p w := by
  have hD : 0 < (weekDaysOf p w).length := List.length_pos.mpr hne
  have hcap : weekAssignable p w ≤ (weekDaysOf p w).length * p.max_blocks_per_day :=
    min_le_right _ _
  obtain ⟨inv, hcnt⟩ := allocWeek_spec (make_block_ids (totalBlocksOf p).toNat)
    (weekDaysOf p w) (weekAssignable p w) p.events_per_week p.max_blocks_per_day
    (nodup_weekDaysOf p w) hD hcap
  refine ⟨inv, ?_⟩
  rw [weekStateOf, hcnt]
  have hT : (make_block_ids (totalBlocksOf p).toNat).length = (totalBlocksOf p).toNat := by
    rw [make_block_ids, List.length_map, List.length_range]
  rw [hT]
  have hreq : weekRequired p = (totalBlocksOf p).toNat * p.events_per_week := rfl
  have hA : weekAssignable p w = min (weekRequired p) (weekCapacity p w) := rfl
  have hmc : p.events_per_week * (totalBlocksOf p).toNat
      = (totalBlocksOf p).toNat * p.events_per_week := Nat.mul_comm _ _
  omega

theorem weekRows_count_sum (p : Params) (w : ℕ) (hne : weekDaysOf p w ≠ []) :
    ((weekRowsOf p w).map Row.blockCount).sum = weekAssignable p w := by
  obtain ⟨inv, hcnt⟩ := weekState_spec p w hne
  rw [weekRows_eq p w hne, List.map_map]
  have hfun : (Row.blockCount ∘
      rowFor p w (litersPerUnit p (weekDaysOf p w).length) (weekStateOf p w))
      = fun d => List.length (getA (weekStateOf p w).assignments d []) := rfl
  rw [hfun]
  conv_lhs => rw [← inv.keysA]
  rw [sum_getA_keys List.length [] (weekStateOf p w).assignments
    (inv.keysA ▸ nodup_weekDaysOf p w)]
  rw [inv.sumC, hcnt]

theorem weekRows_day_cap (p : Params) (w : ℕ) (hne : weekDaysOf p w ≠ []) :
    ∀ row ∈ weekRowsOf p w, row.blockCount ≤ p.max_blocks_per_day := by
  intro row hrow
  rw [weekRows_eq p w hne] at hrow
  obtain ⟨d, _, rfl⟩ := List.mem_map.mp hrow
  obtain ⟨inv, _⟩ := weekState_spec p w hne
  rw [blockCount_rowFor]
  have hpd := inv.perDay d
  have hle := getA_even_targets_le (weekDaysOf p w) (weekAssignable p w)
    p.max_blocks_per_day d
  omega

/-! ## Multiplicity of a block in the week's assignments -/

/-- Total number of times block `b` occurs in the week's per-day lists. -/
def blockCountB (s : WState) (b : ℕ) : ℕ := (s.assignments.map (fun p => p.2.count b)).sum

theorem blockCountB_assignStep (s : WState) (b' b : ℕ) (d : ℤ) (j : ℕ)
    (hnd : (s.assignments.map Prod.fst).Nodup) :
    blockCountB (assignStep b' d j s) b ≤ blockCountB s b + (if b' = b then 1 else 0) := by
  rw [blockCountB, blockCountB, assignStep]
  simp only
  by_cases hd : d ∈ s.assignments.map Prod.fst
  · have hlk := lookup_eq_some_getA [] hd
    have hs := sum_updA (fun l => l.count b) (fun l => l ++ [b']) hnd hlk
    simp only [] at hs
    have hcnt : ((getA s.assignments d []) ++ [b']).count b
        = (getA s.assignments d []).count b + (if b' = b then 1 else 0) := by
      rw [List.count_append]
      have : ([b'] : List ℕ).count b = (if b' = b then 1 else 0) := by
        rw [show ([b'] : List ℕ) = b' :: [] from rfl, List.count_cons]
        simp [beq_iff_eq]
      omega
    omega
  · rw [updA_not_mem _ hd]
    omega

theorem keys_allocBlocks {dayOrder : List ℤ} {D A : ℕ} :
    ∀ (bs : List ℕ) (s : WState),
      ((allocBlocks dayOrder D A bs s).assignments.map Prod.fst) = s.assignments.map Prod.fst := by
  intro bs
  induction bs with
  | nil => intro s; rfl
  | cons b bs ih =>
    intro s
    rw [allocBlocks]
    by_cases hstop : A ≤ s.assignedCount
    · rw [if_pos hstop]
    · rw [if_neg hstop]
      cases hab : allocBlock dayOrder D b s with
      | none => rfl
      | some s2 =>
        obtain ⟨d, j, hs2, _, _⟩ := allocBlock_shape hab
        rw [ih s2, hs2, assignStep]
        simp only
        rw [keys_updA]

theorem blockCountB_allocBlocks (dayOrder : List ℤ) (D A : ℕ) (b : ℕ) :
    ∀ (bs : List ℕ) (s : WState), (s.assignments.map Prod.fst).Nodup →
      blockCountB (allocBlocks dayOrder D A bs s) b ≤ blockCountB s b + bs.count b := by
  intro bs
  induction bs with
  | nil => intro s _; simp [allocBlocks]
  | cons b' bs ih =>
    intro s hnd
    rw [allocBlocks]
    by_cases hstop : A ≤ s.assignedCount
    · rw [if_pos hstop]; omega
    · rw [if_neg hstop]
      cases hab : allocBlock dayOrder D b' s with
      | none =>
        show blockCountB s b ≤ blockCountB s b + (b' :: bs).count b
        omega
      | some s2 =>
        obtain ⟨d, j, hs2, _, _⟩ := allocBlock_shape hab
        have hnd2 : (s2.assignments.map Prod.fst).Nodup := by
          rw [hs2, assignStep]
          simp only
          rw [keys_updA]
          exact hnd
        have h1 := ih s2 hnd2
        have h2 : blockCountB s2 b ≤ blockCountB s b + (if b' = b then 1 else 0) := by
          rw [hs2]
          exact blockCountB_assignStep s b' b d j hnd
        have h3 : (b' :: bs).count b = bs.count b + (if b' = b then 1 else 0) := by
          rw [List.count_cons]
          simp [beq_iff_eq]
        show blockCountB (allocBlocks dayOrder D A bs s2) b
          ≤ blockCountB s b + (b' :: bs).count b
        omega

theorem blockCountB_allocWeek (blockIds : List ℕ) (wd : List ℤ) (A events maxPerDay b : ℕ)
    (hnd : wd.Nodup) :
    blockCountB (allocWeek blockIds wd A events maxPerDay) b ≤ events * blockIds.count b := by
  rw [allocWeek]
  have hinit : blockCountB (initState wd A maxPerDay) b = 0 := by
    rw [blockCountB, initState]
    simp only [List.map_map]
    have : ((fun p : ℤ × List ℕ => p.2.count b) ∘ fun d : ℤ => (d, ([] : List ℕ)))
        = fun _ => 0 := rfl
    rw [this]
    simp
  have hknd : ((initState wd A maxPerDay).assignments.map Prod.fst).Nodup := by
    rw [initState]
    simp only [List.map_map]
    have : (Prod.fst ∘ fun d : ℤ => (d, ([] : List ℕ))) = id := rfl
    rw [this, List.map_id]
    exact hnd
  have hgen : ∀ (ks : List ℕ) (s : WState), (s.assignments.map Prod.fst).Nodup →
      blockCountB
        (ks.foldl
          (fun s k =>
            allocBlocks (wd.drop (k % wd.length) ++ wd.take (k % wd.length)) wd.length A
              (blockIds.drop k ++ blockIds.take k) { s with dayIdx := 0 }) s) b
        ≤ blockCountB s b + ks.length * blockIds.count b := by
    intro ks
    induction ks with
    | nil => intro s _; simp
    | cons k ks ih =>
      intro s hknd1
      simp only [List.foldl_cons]
      have hknd0 : (WState.assignments { s with dayIdx := 0 }).map Prod.fst
          |>.Nodup := hknd1
      have hstep := blockCountB_allocBlocks
        (wd.drop (k % wd.length) ++ wd.take (k % wd.length)) wd.length A b
        (blockIds.drop k ++ blockIds.take k) { s with dayIdx := 0 } hknd0
      have hrot : (blockIds.drop k ++ blockIds.take k).count b = blockIds.count b :=
        (rotate_perm blockIds k).count_eq b
      have hknd2 : ((allocBlocks (wd.drop (k % wd.length) ++ wd.take (k % wd.length))
          wd.length A (blockIds.drop k ++ blockIds.take k)
          { s with dayIdx := 0 }).assignments.map Prod.fst).Nodup := by
        rw [keys_allocBlocks]
        exact hknd1
      have h1 := ih _ hknd2
      have hcb : blockCountB { s with dayIdx := 0 } b = blockCountB s b := rfl
      have hmul : (ks.length + 1) * blockIds.count b
          = ks.length * blockIds.count b + blockIds.count b := by ring
      simp only [List.length_cons]
      omega
  have hfin := hgen (List.range events) (initState wd A maxPerDay) hknd
  rw [hinit, List.length_range, Nat.zero_add] at hfin
  exact hfin

theorem nodup_make_block_ids (n : ℕ) : (make_block_ids n).Nodup := by
  rw [make_block_ids]
  have hinj : Function.Injective (fun i : ℕ => i + 1) := fun a b h => by simpa using h
  exact (List.nodup_range n).map hinj

theorem count_getA_le_blockCountB (s : WState) (d : ℤ) (b : ℕ) :
    (getA s.assignments d []).count b ≤ blockCountB s b := by
  rw [getA, blockCountB]
  cases hv : s.assignments.lookup d with
  | none => simp
  | some v =>
    simp only [Option.getD_some]
    have hmem := snd_mem_of_lookup hv
    obtain ⟨pq, hpq, hvq⟩ := List.mem_map.mp hmem
    have : v.count b ∈ s.assignments.map (fun p => p.2.count b) :=
      List.mem_map.mpr ⟨pq, hpq, by rw [hvq]⟩
    exact List.single_le_sum (fun x _ => Nat.zero_le x) _ this

theorem weekRows_count_le_events (p : Params) (w : ℕ) :
    ∀ row ∈ weekRowsOf p w, ∀ b, row.blockList.count b ≤ p.events_per_week := by
  intro row hrow b
  rw [weekRowsOf] at hrow
  by_cases hne : weekDaysOf p w = []
  · simp [hne] at hrow
  · simp only [if_neg hne] at hrow
    obtain ⟨d, _, rfl⟩ := List.mem_map.mp hrow
    have h1 : (rowFor p w (litersPerUnit p (weekDaysOf p w).length) (weekStateOf p w) d).blockList
        = getA (weekStateOf p w).assignments d [] := rfl
    rw [h1]
    have h2 := count_getA_le_blockCountB (weekStateOf p w) d b
    have h3 := blockCountB_allocWeek (make_block_ids (totalBlocksOf p).toNat)
      (weekDaysOf p w) (weekAssignable p w) p.events_per_week p.max_blocks_per_day b
      (nodup_weekDaysOf p w)
    have h4 : (make_block_ids (totalBlocksOf p).toNat).count b ≤ 1 :=
      List.nodup_iff_count_le_one.mp (nodup_make_block_ids _) b
    have h5 : p.events_per_week * (make_block_ids (totalBlocksOf p).toNat).count b
        ≤ p.events_per_week * 1 := Nat.mul_le_mul_left _ h4
    rw [← weekStateOf] at h3
    omega

/-! ## Calendar facts: candidate days, clipping, Sundays -/

theorem mem_candidateDays {p : Params} {w : ℕ} {d : ℤ} :
    d ∈ candidateDays p w ↔
      p.start_date + 7 * (w : ℤ) ≤ d ∧ d ≤ p.start_date + 7 * (w : ℤ) + 6 ∧
      p.start_date ≤ d ∧ d ≤ horizonEnd p := by
  rw [candidateDays]
  simp only [List.mem_filter, mem_daterange, Bool.and_eq_true, decide_eq_true_eq]
  tauto

theorem mem_weekDaysOf {p : Params} {w : ℕ} {d : ℤ} :
    d ∈ weekDaysOf p w ↔
      d ∈ candidateDays p w ∧ (p.rest_on_sunday = true → is_sunday d = false) := by
  rw [weekDaysOf]
  by_cases hr : p.rest_on_sunday
  · simp [if_pos hr, List.mem_filter, hr]
  · simp [if_neg hr, hr]

theorem candidateDays_eq (p : Params) (w : ℕ) (hw : w < p.weeks) :
    candidateDays p w
      = daterange (p.start_date + 7 * (w : ℤ)) (p.start_date + 7 * (w : ℤ) + 6) := by
  rw [candidateDays]
  apply List.filter_eq_self.mpr
  intro d hd
  rw [mem_daterange] at hd
  have hwz : (w : ℤ) < (p.weeks : ℤ) := by exact_mod_cast hw
  rw [horizonEnd]
  simp only [Bool.and_eq_true, decide_eq_true_eq]
  omega

theorem daterange_seven (s : ℤ) :
    daterange s (s + 6) = (List.range 7).map (fun i : ℕ => s + (i : ℤ)) := by
  rw [daterange]
  have h7 : (s + 6 + 1 - s) = 7 := by ring
  rw [h7]
  rfl

theorem length_candidateDays (p : Params) (w : ℕ) (hw : w < p.weeks) :
    (candidateDays p w).length = 7 := by
  rw [candidateDays_eq p w hw, daterange_seven, List.length_map, List.length_range]

theorem is_sunday_shift (d q : ℤ) : is_sunday (d + 7 * q) = is_sunday d := by
  rw [is_sunday, is_sunday, weekday, weekday, Int.add_mul_emod_self_left d 7 q]

theorem sunday_filter_length (s : ℤ) :
    (((List.range 7).map (fun i : ℕ => s + (i : ℤ))).filter (fun d => !is_sunday d)).length
      = 6 := by
  rw [← List.countP_eq_length_filter, List.countP_map]
  obtain ⟨q, c, hc0, hc7, rfl⟩ : ∃ q c : ℤ, 0 ≤ c ∧ c < 7 ∧ s = 7 * q + c :=
    ⟨s / 7, s % 7, by omega, by omega, by omega⟩
  have hcongr : ∀ i ∈ List.range 7,
      (((fun d => !is_sunday d) ∘ fun i : ℕ => 7 * q + c + (i : ℤ)) i = true
        ↔ ((fun i : ℕ => !is_sunday (c + (i : ℤ))) i = true)) := by
    intro i _
    simp only [Function.comp]
    have heq : 7 * q + c + (i : ℤ) = (c + (i : ℤ)) + 7 * q := by ring
    rw [heq, is_sunday_shift]
  rw [List.countP_congr hcongr]
  interval_cases c <;> decide

theorem length_weekDaysOf (p : Params) (w : ℕ) (hw : w < p.weeks) :
    (weekDaysOf p w).length = if p.rest_on_sunday then 6 else 7 := by
  rw [weekDaysOf]
  by_cases hr : p.rest_on_sunday
  · rw [if_pos hr, if_pos hr, candidateDays_eq p w hw, daterange_seven,
      sunday_filter_length]
  · rw [if_neg hr, if_neg hr]
    exact length_candidateDays p w hw

theorem weekDaysOf_ne_nil (p : Params) (w : ℕ) (hw : w < p.weeks) :
    weekDaysOf p w ≠ [] := by
  intro hc
  have hlen := length_weekDaysOf p w hw
  rw [hc] at hlen
  by_cases hr : p.rest_on_sunday <;> simp [hr] at hlen

theorem weekRows_length (p : Params) (w : ℕ) (hne : weekDaysOf p w ≠ []) :
    (weekRowsOf p w).length = (weekDaysOf p w).length := by
  rw [weekRows_eq p w hne, List.length_map]

theorem generate_schedule_pos (p : Params) (h : 0 < totalBlocksOf p) :
    generate_schedule p
      = (((List.range p.weeks).map (weekRowsOf p)).flatten,
         [("ha", MVal.q p.ha),
          ("blocks_per_ha", MVal.i (p.blocks_per_ha : ℤ)),
          ("trees_per_block", MVal.i (p.trees_per_block : ℤ)),
          ("total_blocks", MVal.i (totalBlocksOf p)),
          ("events_per_week", MVal.i (p.events_per_week : ℤ)),
          ("max_blocks_per_day", MVal.i (p.max_blocks_per_day : ℤ)),
          ("weeks", MVal.i (p.weeks : ℤ)),
          ("rest_on_sunday", MVal.b p.rest_on_sunday),
          ("liters_per_tree_per_week", MVal.q p.liters_per_tree_per_week),
          ("water_split_mode", MVal.s p.water_split_mode),
          ("warnings", MVal.strs (((List.range p.weeks).map (weekWarnsOf p)).flatten))]) := by
  rw [generate_schedule, if_neg (by omega)]

theorem mem_rows_iff (p : Params) (h : 0 < totalBlocksOf p) (row : Row) :
    row ∈ (generate_schedule p).1 ↔ ∃ w, w < p.weeks ∧ row ∈ weekRowsOf p w := by
  rw [generate_schedule_pos p h]
  simp only [List.mem_flatten, List.mem_map, List.mem_range]
  constructor
  · rintro ⟨L, ⟨w, hw, rfl⟩, hrow⟩
    exact ⟨w, hw, hrow⟩
  · rintro ⟨w, hw, hrow⟩
    exact ⟨weekRowsOf p w, ⟨w, hw, rfl⟩, hrow⟩

theorem week_of_mem_weekRows {p : Params} {w : ℕ} {row : Row}
    (hrow : row ∈ weekRowsOf p w) : row.week = w + 1 := by
  rw [weekRowsOf] at hrow
  by_cases hne : weekDaysOf p w = []
  · simp [hne] at hrow
  · simp only [if_neg hne] at hrow
    obtain ⟨d, _, rfl⟩ := List.mem_map.mp hrow
    rfl

theorem flatten_eq_filter_map {α : Type} (f : ℕ → List α) (g : ℕ → α) (c : ℕ → Prop)
    [DecidablePred c] :
    ∀ l : List ℕ, (∀ w ∈ l, f w = if c w then [g w] else []) →
      (l.map f).flatten = (l.filter (fun w => decide (c w))).map g := by
  intro l
  induction l with
  | nil => intro _; rfl
  | cons a t ih =>
    intro hl
    have ha := hl a (by simp)
    have ht := ih (fun w hw => hl w (List.mem_cons_of_mem a hw))
    simp only [List.map_cons, List.flatten_cons, List.filter_cons]
    by_cases hc : c a
    · rw [ha, if_pos hc, ht, if_pos (decide_eq_true hc)]
      simp
    · rw [ha, if_neg hc, ht, if_neg (by simp [hc])]
      simp

theorem warnings_characterization (p : Params) :
    ((List.range p.weeks).map (weekWarnsOf p)).flatten
      = ((List.range p.weeks).filter
          (fun w => decide (weekCapacity p w < weekRequired p))).map
          (fun w => mkWarning p w (weekDaysOf p w).length) := by
  apply flatten_eq_filter_map
  intro w hw
  rw [List.mem_range] at hw
  rw [weekWarnsOf, if_neg (weekDaysOf_ne_nil p w hw)]

theorem pyRound_zero : pyRound 0 = 0 := by
  have h0 : (0 : ℚ).floor = 0 := rfl
  rw [pyRound]
  simp only [h0]
  norm_num

theorem pyRoundTo_zero (nd : ℕ) : pyRoundTo nd 0 = 0 := by
  rw [pyRoundTo, zero_mul, pyRound_zero]
  norm_num

theorem lookup_cons_str {β : Type} (k : String) (v : β) (t : List (String × β)) (d : String) :
    ((k, v) :: t).lookup d = if d = k then some v else t.lookup d := by
  by_cases h : d = k
  · subst h; simp [List.lookup]
  · have hb : (d == k) = false := by simp [h]
    simp [List.lookup, hb, h]

theorem rows_of_pos (p : Params) (h : 0 < totalBlocksOf p) :
    (generate_schedule p).1 = ((List.range p.weeks).map (weekRowsOf p)).flatten := by
  rw [generate_schedule_pos p h]

theorem meta_of_pos (p : Params) (h : 0 < totalBlocksOf p) :
    (generate_schedule p).2
      = [("ha", MVal.q p.ha),
         ("blocks_per_ha", MVal.i (p.blocks_per_ha : ℤ)),
         ("trees_per_block", MVal.i (p.trees_per_block : ℤ)),
         ("total_blocks", MVal.i (totalBlocksOf p)),
         ("events_per_week", MVal.i (p.events_per_week : ℤ)),
         ("max_blocks_per_day", MVal.i (p.max_blocks_per_day : ℤ)),
         ("weeks", MVal.i (p.weeks : ℤ)),
         ("rest_on_sunday", MVal.b p.rest_on_sunday),
         ("liters_per_tree_per_week", MVal.q p.liters_per_tree_per_week),
         ("water_split_mode", MVal.s p.water_split_mode),
         ("warnings", MVal.strs (((List.range p.weeks).map (weekWarnsOf p)).flatten))] := by
  rw [generate_schedule_pos p h]

theorem meta_lookup_warnings (p : Params) (h : 0 < totalBlocksOf p) :
    (generate_schedule p).2.lookup "warnings"
      = some (MVal.strs (((List.range p.weeks).map (weekWarnsOf p)).flatten)) := by
  rw [meta_of_pos p h]
  rw [lookup_cons_str, if_neg (by decide), lookup_cons_str, if_neg (by decide),
    lookup_cons_str, if_neg (by decide), lookup_cons_str, if_neg (by decide),
    lookup_cons_str, if_neg (by decide), lookup_cons_str, if_neg (by decide),
    lookup_cons_str, if_neg (by decide), lookup_cons_str, if_neg (by decide),
    lookup_cons_str, if_neg (by decide), lookup_cons_str, if_neg (by decide),
    lookup_cons_str, if_pos rfl]

/-! ## The claims -/

/-- C1: for every run with `total_blocks > 0` and every week `w` in the horizon
where `required = total_blocks * events_per_week` is at most
`capacity = D * max_blocks_per_day`, the allocation loop assigns exactly
`required` (day, block) pairs for that week: the sum over the week's days of
the per-day block-list lengths equals `required` (no under-allocation). -/
theorem claim_C1 (p : Params) (h : 0 < totalBlocksOf p) (w : ℕ) (hw : w < p.weeks)
    (hcap : weekRequired p ≤ weekCapacity p w) :
    ((weekRowsOf p w).map Row.blockCount).sum = weekRequired p := by
  have hne := weekDaysOf_ne_nil p w hw
  rw [weekRows_count_sum p w hne, weekAssignable]
  omega

/-- The spec's own scenario: 1.0 ha × 17 blocks/ha, 1 event/week,
10 blocks/day cap, Sunday rest (6 working days). -/
def c1p : Params :=
  { start_date := 0, weeks := 1, ha := 1, blocks_per_ha := 17, trees_per_block := 117,
    events_per_week := 1, max_blocks_per_day := 10, rest_on_sunday := true,
    liters_per_tree_per_week := 15, water_split_mode := "events" }

/-- Witness for C1 on the spec's scenario: capacity 60 ≥ required 17, and the
week's assigned counts sum to exactly 17. -/
theorem claim_C1_witness :
    0 < totalBlocksOf c1p ∧ 0 < c1p.weeks ∧ weekRequired c1p ≤ weekCapacity c1p 0 ∧
    ((weekRowsOf c1p 0).map Row.blockCount).sum = weekRequired c1p :=
  ⟨by with_unfolding_all decide, by decide, by with_unfolding_all decide,
   claim_C1 c1p (by with_unfolding_all decide) 0 (by decide)
     (by with_unfolding_all decide)⟩

/-- C2, as stated, is false on the code: with 4 blocks, 2 events/week, a
2-blocks/day cap and no rest day (`D = 7`, so `events_per_week ≤ D`, and even
`required = 8 ≤ capacity = 14`), the second-pass fallback fires for block 1
in pass 1 and the first day's list becomes `[1, 1]`. -/
def c2p : Params :=
  { start_date := 0, weeks := 1, ha := 4, blocks_per_ha := 1, trees_per_block := 1,
    events_per_week := 2, max_blocks_per_day := 2, rest_on_sunday := false,
    liters_per_tree_per_week := 15, water_split_mode := "events" }

/-- Counterexample to C2: `events_per_week = 2 ≤ 7` eligible days, yet the
first emitted row's block list contains block 1 twice. -/
theorem claim_C2_counterexample :
    c2p.events_per_week ≤ (weekDaysOf c2p 0).length ∧
    weekRequired c2p ≤ weekCapacity c2p 0 ∧
    (((generate_schedule c2p).1.map Row.blockList).getD 0 []).count 1 = 2 := by
  with_unfolding_all decide

/-- C2 amended: a day's block list contains a block `b` at most
`events_per_week` times (each pass assigns each block at most once); in
particular, with `events_per_week ≤ 1` no day contains a block more than
once.  The stated bound `events_per_week ≤ eligible days` does not prevent
same-day duplicates (see the counterexample). -/
theorem claim_C2 (p : Params) (w : ℕ) :
    ∀ row ∈ weekRowsOf p w, ∀ b, row.blockList.count b ≤ p.events_per_week :=
  weekRows_count_le_events p w

/-- Witness for the amended C2 at the spec's scenario: the first row's list
contains block 1 at most once. -/
theorem claim_C2_witness :
    ((weekRowsOf c1p 0).getD 0
        { date := 0, weekdayIdx := 0, week := 0, blockCount := 0, blockList := [],
          treesEst := 0, splitLabel := "", perTree := 0, liters := 0, m3 := 0 }).blockList.count 1
      ≤ c1p.events_per_week := by
  have hlen : 0 < (weekRowsOf c1p 0).length := by with_unfolding_all decide
  exact claim_C2 c1p 0 _
    (by rw [List.getD_eq_getElem _ _ hlen]; exact List.getElem_mem hlen) 1

/-- C3: invariant of every generated schedule: per week, each day's assigned
count is at most `max_blocks_per_day`, and the week's total assigned count is
at most `min(required, capacity)`. -/
theorem claim_C3 (p : Params) (h : 0 < totalBlocksOf p) (w : ℕ) (hw : w < p.weeks) :
    (∀ row ∈ weekRowsOf p w, row.blockCount ≤ p.max_blocks_per_day) ∧
    ((weekRowsOf p w).map Row.blockCount).sum ≤ min (weekRequired p) (weekCapacity p w) := by
  have hne := weekDaysOf_ne_nil p w hw
  refine ⟨weekRows_day_cap p w hne, ?_⟩
  rw [weekRows_count_sum p w hne]
  exact le_of_eq rfl

/-- The spec's shortfall scenario: like `c1p` but with a 2-blocks/day cap, so
capacity 12 < required 17. -/
def c3p : Params :=
  { start_date := 0, weeks := 1, ha := 1, blocks_per_ha := 17, trees_per_block := 117,
    events_per_week := 1, max_blocks_per_day := 2, rest_on_sunday := true,
    liters_per_tree_per_week := 15, water_split_mode := "events" }

/-- Witness for C3 on the shortfall scenario (capacity 12 < required 17). -/
theorem claim_C3_witness :
    0 < totalBlocksOf c3p ∧ 0 < c3p.weeks ∧
    ((∀ row ∈ weekRowsOf c3p 0, row.blockCount ≤ c3p.max_blocks_per_day) ∧
      ((weekRowsOf c3p 0).map Row.blockCount).sum
        ≤ min (weekRequired c3p) (weekCapacity c3p 0)) :=
  ⟨by with_unfolding_all decide, by decide,
   claim_C3 c3p (by with_unfolding_all decide) 0 (by decide)⟩

/-- C4: `_even_targets` on a non-empty day list with
`total_assignable ≤ D * max_per_day` gives the first `total_assignable % D`
days `⌊total_assignable/D⌋ + 1` and the rest `⌊total_assignable/D⌋`, capped
at `max_per_day`; the targets sum to `total_assignable`, never exceed
`max_per_day`, and are level to within 1 of each other. -/
theorem claim_C4 (days : List ℤ) (t m : ℕ) (hne : days ≠ [])
    (hcap : t ≤ days.length * m) :
    (even_targets days t m).map Prod.snd
        = (List.range days.length).map
            (fun i => min (t / days.length + if i < t % days.length then 1 else 0) m) ∧
    ((even_targets days t m).map Prod.snd).sum = t ∧
    (∀ v ∈ (even_targets days t m).map Prod.snd, v ≤ m) ∧
    (∀ x ∈ (even_targets days t m).map Prod.snd,
      ∀ y ∈ (even_targets days t m).map Prod.snd, x ≤ y + 1) := by
  have hD : 0 < days.length := List.length_pos.mpr hne
  have hDne : days.length ≠ 0 := by omega
  refine ⟨snd_even_targets days t m hDne, sum_even_targets days t m hD hcap, ?_, ?_⟩
  · intro v hv
    rw [snd_even_targets days t m hDne] at hv
    obtain ⟨i, _, rfl⟩ := List.mem_map.mp hv
    omega
  · intro x hx y hy
    rw [snd_even_targets days t m hDne] at hx hy
    obtain ⟨i, hi, rfl⟩ := List.mem_map.mp hx
    obtain ⟨j, hj, rfl⟩ := List.mem_map.mp hy
    rw [List.mem_range] at hi hj
    by_cases hi2 : i < t % days.length
    · rw [if_pos hi2]
      by_cases hj2 : j < t % days.length
      · rw [if_pos hj2]; omega
      · rw [if_neg hj2]; omega
    · rw [if_neg hi2]
      by_cases hj2 : j < t % days.length
      · rw [if_pos hj2]; omega
      · rw [if_neg hj2]; omega

/-- Witness for C4: three days, 4 assignable, cap 2 → targets `[2, 1, 1]`. -/
theorem claim_C4_witness :
    (([0, 1, 2] : List ℤ) ≠ [] ∧ 4 ≤ ([0, 1, 2] : List ℤ).length * 2) ∧
    ((even_targets [0, 1, 2] 4 2).map Prod.snd
        = (List.range ([0, 1, 2] : List ℤ).length).map
            (fun i => min (4 / ([0, 1, 2] : List ℤ).length
              + if i < 4 % ([0, 1, 2] : List ℤ).length then 1 else 0) 2) ∧
      ((even_targets [0, 1, 2] 4 2).map Prod.snd).sum = 4 ∧
      (∀ v ∈ (even_targets [0, 1, 2] 4 2).map Prod.snd, v ≤ 2) ∧
      (∀ x ∈ (even_targets [0, 1, 2] 4 2).map Prod.snd,
        ∀ y ∈ (even_targets [0, 1, 2] 4 2).map Prod.snd, x ≤ y + 1)) :=
  ⟨⟨by decide, by decide⟩, claim_C4 [0, 1, 2] 4 2 (by decide) (by decide)⟩

/-- C5: with `total_blocks > 0`, the warnings list contains exactly one
`mkWarning` entry per week with `required > capacity` (in week order) — the
string carries the week number, the `required = blocks × events` breakdown,
the `capacity = days × cap` breakdown and the remediation hint (see
`mkWarning`); the shortfall is never fatal: every week still allocates
exactly `assignable = min(required, capacity)` pairs and emits its rows. -/
theorem claim_C5 (p : Params) (h : 0 < totalBlocksOf p) :
    (generate_schedule p).2.lookup "warnings"
        = some (MVal.strs
            (((List.range p.weeks).filter
                (fun w => decide (weekCapacity p w < weekRequired p))).map
              (fun w => mkWarning p w (weekDaysOf p w).length))) ∧
    (∀ w, w < p.weeks →
      ((weekRowsOf p w).map Row.blockCount).sum = weekAssignable p w ∧
        weekRowsOf p w ≠ []) := by
  refine ⟨?_, ?_⟩
  · rw [meta_lookup_warnings p h, warnings_characterization]
  · intro w hw
    have hne := weekDaysOf_ne_nil p w hw
    refine ⟨weekRows_count_sum p w hne, ?_⟩
    intro hc
    have hlen := weekRows_length p w hne
    rw [hc] at hlen
    simp only [List.length_nil] at hlen
    have hpos : 0 < (weekDaysOf p w).length := List.length_pos.mpr hne
    omega

/-- Two-week shortfall run: 17 blocks, 1 event/week, 2 blocks/day cap,
Sunday rest — capacity 12 < required 17 in both weeks. -/
def c5p : Params :=
  { start_date := 0, weeks := 2, ha := 1, blocks_per_ha := 17, trees_per_block := 117,
    events_per_week := 1, max_blocks_per_day := 2, rest_on_sunday := true,
    liters_per_tree_per_week := 15, water_split_mode := "events" }

/-- Witness for C5 on the two-week shortfall run. -/
theorem claim_C5_witness :
    0 < totalBlocksOf c5p ∧
    ((generate_schedule c5p).2.lookup "warnings"
        = some (MVal.strs
            (((List.range c5p.weeks).filter
                (fun w => decide (weekCapacity c5p w < weekRequired c5p))).map
              (fun w => mkWarning c5p w (weekDaysOf c5p w).length))) ∧
      (∀ w, w < c5p.weeks →
        ((weekRowsOf c5p w).map Row.blockCount).sum = weekAssignable c5p w ∧
          weekRowsOf c5p w ≠ [])) :=
  ⟨by with_unfolding_all decide, claim_C5 c5p (by with_unfolding_all decide)⟩

/-- C6: whenever `total_blocks = round(ha × blocks_per_ha) ≤ 0`,
`generate_schedule` returns the empty row list together with a metadata
record holding only `total_blocks = 0` and the single descriptive warning —
no exception, and no week/allocation processing happens. -/
theorem claim_C6 (p : Params) (h : totalBlocksOf p ≤ 0) :
    generate_schedule p
      = ([], [("total_blocks", MVal.i 0), ("warnings", MVal.strs [emptyMsg])]) := by
  rw [generate_schedule, if_pos h]

/-- Degenerate run: `ha = 0` gives `total_blocks = 0`. -/
def c6p : Params :=
  { start_date := 0, weeks := 8, ha := 0, blocks_per_ha := 17, trees_per_block := 117,
    events_per_week := 1, max_blocks_per_day := 10, rest_on_sunday := true,
    liters_per_tree_per_week := 15, water_split_mode := "events" }

/-- Witness for C6 on the `ha = 0` run. -/
theorem claim_C6_witness :
    totalBlocksOf c6p ≤ 0 ∧
    generate_schedule c6p
      = ([], [("total_blocks", MVal.i 0), ("warnings", MVal.strs [emptyMsg])]) :=
  ⟨by with_unfolding_all decide, claim_C6 c6p (by with_unfolding_all decide)⟩

/-- C9, as stated, is false: in the degenerate run (`ha = 0`,
`total_blocks ≤ 0`) the returned metadata does not echo the input
parameters — it has no `"ha"` entry at all (nor any other input echo except
`total_blocks`). -/
theorem claim_C9_counterexample :
    totalBlocksOf c6p ≤ 0 ∧ (generate_schedule c6p).2.lookup "ha" = none := by
  with_unfolding_all decide

/-- C9 amended: for every run with `total_blocks > 0` the metadata echoes
all ten input parameters plus the warnings list; in the degenerate run
(`total_blocks ≤ 0`) the metadata holds only `total_blocks = 0` and the
single warning message. -/
theorem claim_C9 (p : Params) :
    (0 < totalBlocksOf p →
      (generate_schedule p).2
        = [("ha", MVal.q p.ha),
           ("blocks_per_ha", MVal.i (p.blocks_per_ha : ℤ)),
           ("trees_per_block", MVal.i (p.trees_per_block : ℤ)),
           ("total_blocks", MVal.i (totalBlocksOf p)),
           ("events_per_week", MVal.i (p.events_per_week : ℤ)),
           ("max_blocks_per_day", MVal.i (p.max_blocks_per_day : ℤ)),
           ("weeks", MVal.i (p.weeks : ℤ)),
           ("rest_on_sunday", MVal.b p.rest_on_sunday),
           ("liters_per_tree_per_week", MVal.q p.liters_per_tree_per_week),
           ("water_split_mode", MVal.s p.water_split_mode),
           ("warnings",
             MVal.strs (((List.range p.weeks).map (weekWarnsOf p)).flatten))]) ∧
    (totalBlocksOf p ≤ 0 →
      (generate_schedule p).2
        = [("total_blocks", MVal.i 0), ("warnings", MVal.strs [emptyMsg])]) :=
  ⟨fun h => meta_of_pos p h, fun h => by rw [generate_schedule, if_pos h]⟩

/-- Witness for the amended C9: the full echo on the spec scenario run, and
the two-entry metadata on the `ha = 0` run. -/
theorem claim_C9_witness :
    ((generate_schedule c1p).2
        = [("ha", MVal.q c1p.ha),
           ("blocks_per_ha", MVal.i (c1p.blocks_per_ha : ℤ)),
           ("trees_per_block", MVal.i (c1p.trees_per_block : ℤ)),
           ("total_blocks", MVal.i (totalBlocksOf c1p)),
           ("events_per_week", MVal.i (c1p.events_per_week : ℤ)),
           ("max_blocks_per_day", MVal.i (c1p.max_blocks_per_day : ℤ)),
           ("weeks", MVal.i (c1p.weeks : ℤ)),
           ("rest_on_sunday", MVal.b c1p.rest_on_sunday),
           ("liters_per_tree_per_week", MVal.q c1p.liters_per_tree_per_week),
           ("water_split_mode", MVal.s c1p.water_split_mode),
           ("warnings",
             MVal.strs (((List.range c1p.weeks).map (weekWarnsOf c1p)).flatten))]) ∧
    ((generate_schedule c6p).2
        = [("total_blocks", MVal.i 0), ("warnings", MVal.strs [emptyMsg])]) :=
  ⟨(claim_C9 c1p).1 (by with_unfolding_all decide),
   (claim_C9 c6p).2 (by with_unfolding_all decide)⟩

/-- C10: with `total_blocks > 0`, no week window is ever clipped — each of
the `weeks` windows has exactly 7 candidate days, hence 6 eligible days with
the Sunday rest (7 without), so the zero-eligible-days skip is unreachable
and every week emits exactly one row per eligible day; a day with an empty
block list still yields a row with zero count, zero trees and zero water. -/
theorem claim_C10 (p : Params) (h : 0 < totalBlocksOf p) (w : ℕ) (hw : w < p.weeks) :
    candidateDays p w
        = daterange (p.start_date + 7 * (w : ℤ)) (p.start_date + 7 * (w : ℤ) + 6) ∧
    (candidateDays p w).length = 7 ∧
    (weekDaysOf p w).length = (if p.rest_on_sunday then 6 else 7) ∧
    6 ≤ (weekDaysOf p w).length ∧
    (weekRowsOf p w).length = (weekDaysOf p w).length ∧
    (∀ row ∈ weekRowsOf p w, row.blockList = [] →
      row.blockCount = 0 ∧ row.treesEst = 0 ∧ row.liters = 0 ∧ row.m3 = 0) := by
  have hne := weekDaysOf_ne_nil p w hw
  refine ⟨candidateDays_eq p w hw, length_candidateDays p w hw,
    length_weekDaysOf p w hw, ?_, weekRows_length p w hne, ?_⟩
  · rw [length_weekDaysOf p w hw]
    by_cases hr : p.rest_on_sunday <;> simp [hr]
  · intro row hrow hbl
    rw [weekRows_eq p w hne] at hrow
    obtain ⟨d, _, rfl⟩ := List.mem_map.mp hrow
    have hbl' : getA (weekStateOf p w).assignments d [] = [] := hbl
    refine ⟨?_, ?_, ?_, ?_⟩
    · show (getA (weekStateOf p w).assignments d []).length = 0
      rw [hbl']
      rfl
    · show (getA (weekStateOf p w).assignments d []).length * p.trees_per_block = 0
      rw [hbl']
      simp
    · show pyRoundTo 0
        ((((getA (weekStateOf p w).assignments d []).length * p.trees_per_block : ℕ) : ℚ)
          * litersPerUnit p (weekDaysOf p w).length) = 0
      rw [hbl']
      simp only [List.length_nil, Nat.zero_mul, Nat.cast_zero, zero_mul]
      exact pyRoundTo_zero 0
    · show pyRoundTo 2
        (((((getA (weekStateOf p w).assignments d []).length * p.trees_per_block : ℕ) : ℚ)
          * litersPerUnit p (weekDaysOf p w).length) / 1000) = 0
      rw [hbl']
      simp only [List.length_nil, Nat.zero_mul, Nat.cast_zero, zero_mul, zero_div]
      exact pyRoundTo_zero 2

/-- Witness for C10 at the spec scenario, week 0. -/
theorem claim_C10_witness :
    0 < totalBlocksOf c1p ∧ 0 < c1p.weeks ∧
    (candidateDays c1p 0
        = daterange (c1p.start_date + 7 * (0 : ℤ)) (c1p.start_date + 7 * (0 : ℤ) + 6) ∧
      (candidateDays c1p 0).length = 7 ∧
      (weekDaysOf c1p 0).length = (if c1p.rest_on_sunday then 6 else 7) ∧
      6 ≤ (weekDaysOf c1p 0).length ∧
      (weekRowsOf c1p 0).length = (weekDaysOf c1p 0).length ∧
      (∀ row ∈ weekRowsOf c1p 0, row.blockList = [] →
        row.blockCount = 0 ∧ row.treesEst = 0 ∧ row.liters = 0 ∧ row.m3 = 0)) :=
  ⟨by with_unfolding_all decide, by decide,
   claim_C10 c1p (by with_unfolding_all decide) 0 (by decide)⟩

/-- C7: every emitted row's per-tree liter allocation is
`liters_per_tree_per_week / D` in workday-split mode and
`liters_per_tree_per_week / max(events_per_week, 1)` otherwise (rounded to
2 decimals for display); the row's total liters is
(assigned blocks × trees_per_block) × that allocation, rounded to the
nearest integer (half to even); and the m³ figure is that product divided
by 1000, rounded to 2 decimals. -/
theorem claim_C7 (p : Params) (h : 0 < totalBlocksOf p) :
    ∀ row ∈ (generate_schedule p).1, ∃ w, w < p.weeks ∧ row.week = w + 1 ∧
      row.treesEst = row.blockCount * p.trees_per_block ∧
      row.perTree = pyRoundTo 2
        (if p.water_split_mode = "workdays"
         then p.liters_per_tree_per_week / ((weekDaysOf p w).length : ℚ)
         else p.liters_per_tree_per_week / (max p.events_per_week 1 : ℚ)) ∧
      row.liters = pyRoundTo 0 ((row.treesEst : ℚ) *
        (if p.water_split_mode = "workdays"
         then p.liters_per_tree_per_week / ((weekDaysOf p w).length : ℚ)
         else p.liters_per_tree_per_week / (max p.events_per_week 1 : ℚ))) ∧
      row.m3 = pyRoundTo 2 (((row.treesEst : ℚ) *
        (if p.water_split_mode = "workdays"
         then p.liters_per_tree_per_week / ((weekDaysOf p w).length : ℚ)
         else p.liters_per_tree_per_week / (max p.events_per_week 1 : ℚ))) / 1000) := by
  intro row hrow
  obtain ⟨w, hw, hmem⟩ := (mem_rows_iff p h row).mp hrow
  have hne : weekDaysOf p w ≠ [] := fun hc => by
    rw [weekRowsOf, if_pos hc] at hmem
    exact (List.not_mem_nil _) hmem
  rw [weekRows_eq p w hne] at hmem
  obtain ⟨d, _, rfl⟩ := List.mem_map.mp hmem
  exact ⟨w, hw, rfl, rfl, rfl, rfl, rfl⟩

/-- Witness for C7 at the spec scenario. -/
theorem claim_C7_witness :
    0 < totalBlocksOf c1p ∧
    (∀ row ∈ (generate_schedule c1p).1, ∃ w, w < c1p.weeks ∧ row.week = w + 1 ∧
      row.treesEst = row.blockCount * c1p.trees_per_block ∧
      row.perTree = pyRoundTo 2
        (if c1p.water_split_mode = "workdays"
         then c1p.liters_per_tree_per_week / ((weekDaysOf c1p w).length : ℚ)
         else c1p.liters_per_tree_per_week / (max c1p.events_per_week 1 : ℚ)) ∧
      row.liters = pyRoundTo 0 ((row.treesEst : ℚ) *
        (if c1p.water_split_mode = "workdays"
         then c1p.liters_per_tree_per_week / ((weekDaysOf c1p w).length : ℚ)
         else c1p.liters_per_tree_per_week / (max c1p.events_per_week 1 : ℚ))) ∧
      row.m3 = pyRoundTo 2 (((row.treesEst : ℚ) *
        (if c1p.water_split_mode = "workdays"
         then c1p.liters_per_tree_per_week / ((weekDaysOf c1p w).length : ℚ)
         else c1p.liters_per_tree_per_week / (max c1p.events_per_week 1 : ℚ))) / 1000)) :=
  ⟨by with_unfolding_all decide, claim_C7 c1p (by with_unfolding_all decide)⟩

/-- C8: the horizon ends at `start_date + weeks*7 - 1`; week `w`'s eligible
days are exactly the days of `[start+7w, start+7w+6]` that lie in the
horizon and are not the Sunday rest day (when enabled); every emitted row's
date is an eligible day of its week and lies within the horizon; and a week
with no eligible days emits no rows. -/
theorem claim_C8 (p : Params) (h : 0 < totalBlocksOf p) :
    horizonEnd p = p.start_date + ((p.weeks : ℤ) * 7 - 1) ∧
    (∀ (w : ℕ) (d : ℤ), d ∈ weekDaysOf p w ↔
      (p.start_date + 7 * (w : ℤ) ≤ d ∧ d ≤ p.start_date + 7 * (w : ℤ) + 6 ∧
       p.start_date ≤ d ∧ d ≤ horizonEnd p ∧
       (p.rest_on_sunday = true → is_sunday d = false))) ∧
    (∀ row ∈ (generate_schedule p).1, ∃ w, w < p.weeks ∧ row.week = w + 1 ∧
      row.date ∈ weekDaysOf p w ∧ p.start_date ≤ row.date ∧ row.date ≤ horizonEnd p) ∧
    (∀ w, weekDaysOf p w = [] → weekRowsOf p w = []) := by
  have hmemchar : ∀ (w : ℕ) (d : ℤ), d ∈ weekDaysOf p w ↔
      (p.start_date + 7 * (w : ℤ) ≤ d ∧ d ≤ p.start_date + 7 * (w : ℤ) + 6 ∧
       p.start_date ≤ d ∧ d ≤ horizonEnd p ∧
       (p.rest_on_sunday = true → is_sunday d = false)) := by
    intro w d
    rw [mem_weekDaysOf, mem_candidateDays]
    tauto
  refine ⟨rfl, hmemchar, ?_, ?_⟩
  · intro row hrow
    obtain ⟨w, hw, hmem⟩ := (mem_rows_iff p h row).mp hrow
    have hne : weekDaysOf p w ≠ [] := fun hc => by
      rw [weekRowsOf, if_pos hc] at hmem
      exact (List.not_mem_nil _) hmem
    have hweek := week_of_mem_weekRows hmem
    rw [weekRows_eq p w hne] at hmem
    obtain ⟨d, hd, rfl⟩ := List.mem_map.mp hmem
    have hbounds := (hmemchar w d).mp hd
    exact ⟨w, hw, hweek, hd, hbounds.2.2.1, hbounds.2.2.2.1⟩
  · intro w hc
    rw [weekRowsOf, if_pos hc]

/-- Witness for C8 at the spec scenario. -/
theorem claim_C8_witness :
    0 < totalBlocksOf c1p ∧
    (horizonEnd c1p = c1p.start_date + ((c1p.weeks : ℤ) * 7 - 1) ∧
     (∀ (w : ℕ) (d : ℤ), d ∈ weekDaysOf c1p w ↔
       (c1p.start_date + 7 * (w : ℤ) ≤ d ∧ d ≤ c1p.start_date + 7 * (w : ℤ) + 6 ∧
        c1p.start_date ≤ d ∧ d ≤ horizonEnd c1p ∧
        (c1p.rest_on_sunday = true → is_sunday d = false))) ∧
     (∀ row ∈ (generate_schedule c1p).1, ∃ w, w < c1p.weeks ∧ row.week = w + 1 ∧
       row.date ∈ weekDaysOf c1p w ∧ c1p.start_date ≤ row.date ∧
       row.date ≤ horizonEnd c1p) ∧
     (∀ w, weekDaysOf c1p w = [] → weekRowsOf c1p w = [])) :=
  ⟨by with_unfolding_all decide, claim_C8 c1p (by with_unfolding_all decide)⟩
